import Mathlib

/-!
Verification of the sequential phase scheduler
(`syllabus/curricula/sequential.py`): the flat task sequencer
`SequentialCurriculum`, the stopping-condition engine, and the phase
orchestrator `SequentialMetaCurriculum`, shallowly embedded in Lean.
Python attribute mutation is modelled by explicit state passing; a method
that can raise returns its (possibly mutated) state together with an
`Except`/`Option` result, since attribute writes made before a `raise`
persist in the Python object.
-/

namespace Syllabus

/-- Decidable equality for `Except`, used to evaluate closed statements
about fallible calls with `decide`. -/
instance {ε α : Type} [DecidableEq ε] [DecidableEq α] : DecidableEq (Except ε α) :=
  fun a b =>
    match a, b with
    | .ok x, .ok y =>
      if h : x = y then .isTrue (by rw [h])
      else .isFalse (by intro hc; cases hc; exact h rfl)
    | .error x, .error y =>
      if h : x = y then .isTrue (by rw [h])
      else .isFalse (by intro hc; cases hc; exact h rfl)
    | .ok _, .error _ => .isFalse (by intro hc; cases hc)
    | .error _, .ok _ => .isFalse (by intro hc; cases hc)

/-- State of a `SequentialCurriculum` object: the fields set in
`SequentialCurriculum.__init__` (`task_list`, `num_repeats`, `repeat_list`,
`_task_index`, `_repeat_index`). -/
structure SeqState (α : Type) where
  task_list : List α
  num_repeats : List Nat
  repeat_list : Bool
  task_index : Nat
  repeat_index : Nat
deriving DecidableEq

/-- Errors a `sample` call can raise: the `ValueError` for running out of
tasks (carrying the reported sample count), or an out-of-range list access
(`IndexError` in Python). -/
inductive SampleError where
  | exhausted (count : Nat)
  | indexError
deriving DecidableEq

namespace SequentialCurriculum

/-- Python method `SequentialCurriculum.__init__`: stores `task_list` and `num_repeats`
as given; `num_repeats` defaults to `[1] * len(task_list)` when omitted.
The cursor starts at `(0, 0)`. No validation is performed. -/
def init (task_list : List α) (num_repeats : Option (List Nat)) (repeat_list : Bool) :
    SeqState α :=
  { task_list := task_list
    num_repeats := num_repeats.getD (List.replicate task_list.length 1)
    repeat_list := repeat_list
    task_index := 0
    repeat_index := 0 }

/-- The emission step of one iteration of the loop in
`SequentialCurriculum.sample`: append `task_list[_task_index]`, increment
`_repeat_index`, and advance `_task_index` once the repeat count of the
current slot is met. List accesses out of range give `indexError`. -/
def sampleEmit (s : SeqState α) : SeqState α × Except SampleError α :=
  match s.task_list[s.task_index]? with
  | none => (s, .error .indexError)
  | some t =>
    let s1 := { s with repeat_index := s.repeat_index + 1 }
    match s1.num_repeats[s1.task_index]? with
    | none => (s1, .error .indexError)
    | some r =>
      if s1.repeat_index ≥ r then
        ({ s1 with task_index := s1.task_index + 1, repeat_index := 0 }, .ok t)
      else
        (s1, .ok t)

/-- One iteration of the loop in `SequentialCurriculum.sample`: if the
cursor has passed the end of `task_list` it is reset to `0` first, and only
then, when `repeat_list` is false, the exhaustion `ValueError` is raised
(reporting `sum(self.num_repeats)`); note the reset persists across the
raise, exactly as in the source. -/
def sampleOne (s : SeqState α) : SeqState α × Except SampleError α :=
  if s.task_index ≥ s.task_list.length then
    if s.repeat_list then
      sampleEmit { s with task_index := 0 }
    else
      ({ s with task_index := 0 }, .error (.exhausted s.num_repeats.sum))
  else
    sampleEmit s

/-- The `for _ in range(k)` loop of `SequentialCurriculum.sample`,
accumulating emitted tasks; when an iteration raises, the partially built
local list is discarded but the state reached so far is kept. -/
def sampleAux : Nat → SeqState α → List α → SeqState α × Except SampleError (List α)
  | 0, s, acc => (s, .ok acc.reverse)
  | k + 1, s, acc =>
    match sampleOne s with
    | (s', .ok t) => sampleAux k s' (t :: acc)
    | (s', .error e) => (s', .error e)

/-- Python method `SequentialCurriculum.sample(k)`. -/
def sample (k : Nat) (s : SeqState α) : SeqState α × Except SampleError (List α) :=
  sampleAux k s []

/-- The validating constructor described by the specification
("Construction validates `len(num_repeats) == len(task_list)` when repeats
are provided"), written from the wording of the spec for comparison with
the implemented `init`, which performs no such check. -/
def initSpec (task_list : List α) (num_repeats : Option (List Nat)) (repeat_list : Bool) :
    Except String (SeqState α) :=
  match num_repeats with
  | some nr =>
    if nr.length = task_list.length then .ok (init task_list (some nr) repeat_list)
    else .error "num_repeats must match task_list in length"
  | none => .ok (init task_list none repeat_list)

/-- Python method `SequentialCurriculum.remaining_tasks`: `0` once the cursor has passed
the end, otherwise `(num_repeats[_task_index] - _repeat_index)` plus the
sum of `num_repeats[_task_index + 1:]`; `none` models the `IndexError`
when `num_repeats` is shorter than `task_list`. -/
def remaining_tasks (s : SeqState α) : Option Int :=
  if s.task_index ≥ s.task_list.length then
    some 0
  else
    match s.num_repeats[s.task_index]? with
    | none => none
    | some r =>
      some ((r : Int) - (s.repeat_index : Int) +
        ((s.num_repeats.drop (s.task_index + 1)).sum : Int))

/-- The task sequence of one full pass over the list: each task repeated
its repeat count, in list order. -/
def expand (tl : List α) (nr : List Nat) : List α :=
  (List.zipWith (fun t r => List.replicate r t) tl nr).flatten

/-- The task sequence emitted from cursor position `(i, j)` to the end of
the current (non-wrapping) pass. -/
def expandFrom (tl : List α) (nr : List Nat) (i j : Nat) : List α :=
  if h : i < tl.length then
    match nr[i]? with
    | some r => List.replicate (r - j) (tl.get ⟨i, h⟩) ++ expandFrom tl nr (i + 1) 0
    | none => []
  else []
termination_by tl.length - i
decreasing_by omega

/-- Number of samples remaining in the current pass, as a natural number
(used as the induction measure for the pass lemma). -/
def remainingNat (s : SeqState α) : Nat :=
  if s.task_index ≥ s.task_list.length then 0
  else (s.num_repeats.getD s.task_index 0 - s.repeat_index) +
    (s.num_repeats.drop (s.task_index + 1)).sum

/-- The cursor invariant maintained by `sample` from a freshly constructed
state whose `num_repeats` are positive and match `task_list` in length. -/
structure SeqInv (s : SeqState α) : Prop where
  len_eq : s.num_repeats.length = s.task_list.length
  pos : ∀ r ∈ s.num_repeats, 0 < r
  idx_le : s.task_index ≤ s.task_list.length
  rep_lt : s.task_index < s.task_list.length →
    s.repeat_index < s.num_repeats.getD s.task_index 0
  rep_zero : s.task_list.length ≤ s.task_index → s.repeat_index = 0

end SequentialCurriculum

/-! ## Condition engine

`SequentialMetaCurriculum._parse_condition_string` and the closures it
returns. Strings are embedded as `List Char`; the Python closures read the
live counters of the orchestrator at call time, which is modelled by
passing the current `Metrics` to the evaluation stage explicitly. -/

/-- The phase-scoped counters read by the stopping-condition closures
(`self.n_steps`, `self.n_episodes`, `self.episode_returns`). -/
structure Metrics where
  n_steps : Nat
  n_episodes : Nat
  episode_returns : List Rat
deriving DecidableEq

/-- Python method `SequentialMetaCurriculum._get_steps`. -/
def Metrics.get_steps (M : Metrics) : Rat := M.n_steps

/-- Python method `SequentialMetaCurriculum._get_episodes`. -/
def Metrics.get_episodes (M : Metrics) : Rat := M.n_episodes

/-- Python method `SequentialMetaCurriculum._get_episode_return`:
`sum(self.episode_returns) / len(self.episode_returns)` when
`len(self.episode_returns) > 0`, else `0`. -/
def Metrics.get_episode_return (M : Metrics) : Rat :=
  if 0 < M.episode_returns.length then
    M.episode_returns.sum / (M.episode_returns.length : Rat)
  else 0

/-- The three metric names recognized by the parser. -/
inductive Metric where
  | steps
  | episodes
  | episode_return
deriving DecidableEq

/-- The metric accessor bound at parse time (`metric_fn`). -/
def Metric.eval (m : Metric) (M : Metrics) : Rat :=
  match m with
  | .steps => M.get_steps
  | .episodes => M.get_episodes
  | .episode_return => M.get_episode_return

/-- The five comparators recognized by the parser. -/
inductive Comparator where
  | lt
  | gt
  | le
  | ge
  | eq
deriving DecidableEq

/-- The comparison performed by the returned closure for each comparator. -/
def Comparator.eval (c : Comparator) (x y : Rat) : Bool :=
  match c with
  | .lt => decide (x < y)
  | .gt => decide (x > y)
  | .le => decide (x ≤ y)
  | .ge => decide (x ≥ y)
  | .eq => decide (x = y)

/-- The standard numeric relation each comparator stands for
(specification-level counterpart of `Comparator.eval`). -/
def Comparator.rel (c : Comparator) (x y : Rat) : Prop :=
  match c with
  | .lt => x < y
  | .gt => x > y
  | .le => x ≤ y
  | .ge => x ≥ y
  | .eq => x = y

/-- Prepend a character to the first fragment of a split result. -/
def consHead (c : Char) : List (List Char) → List (List Char)
  | [] => [[c]]
  | f :: fs => (c :: f) :: fs

/-- Models `re.split(re.escape(sep), s)` for a single literal character:
fragments between occurrences of `sep`, keeping empty fragments. -/
def splitOnChar (sep : Char) : List Char → List (List Char)
  | [] => [[]]
  | c :: rest =>
    if c = sep then [] :: splitOnChar sep rest
    else consHead c (splitOnChar sep rest)

/-- Models `re.split('(<=|>=|=|<|>)', s)`: fragments interleaved with the matched
comparators, the two-character comparators `<=`/`>=` matched in preference
to `<`/`>` because the regex alternation lists them first. -/
def splitComparators : List Char → List (List Char)
  | [] => [[]]
  | c :: '=' :: rest =>
    if c = '<' ∨ c = '>' then [] :: [c, '='] :: splitComparators rest
    else if c = '=' then [] :: [c] :: splitComparators ('=' :: rest)
    else consHead c (splitComparators ('=' :: rest))
  | c :: rest =>
    if c = '<' ∨ c = '>' ∨ c = '=' then [] :: [c] :: splitComparators rest
    else consHead c (splitComparators rest)

/-- The `if metric == ... / elif ... / else raise` dispatch on the metric
name. -/
def metricOfName (s : List Char) : Option Metric :=
  if s = "steps".toList then some .steps
  else if s = "episodes".toList then some .episodes
  else if s = "episode_return".toList then some .episode_return
  else none

/-- The `if comparator == ... / elif ... / else raise` dispatch on the
comparator token. -/
def comparatorOfName (s : List Char) : Option Comparator :=
  if s = "<".toList then some .lt
  else if s = ">".toList then some .gt
  else if s = "<=".toList then some .le
  else if s = ">=".toList then some .ge
  else if s = "=".toList then some .eq
  else none

/-- The character strings naming each metric. -/
def Metric.name (m : Metric) : List Char :=
  match m with
  | .steps => "steps".toList
  | .episodes => "episodes".toList
  | .episode_return => "episode_return".toList

/-- The character strings naming each comparator. -/
def Comparator.name (c : Comparator) : List Char :=
  match c with
  | .lt => "<".toList
  | .gt => ">".toList
  | .le => "<=".toList
  | .ge => ">=".toList
  | .eq => "=".toList

/-- What `_parse_condition_string` builds at parse (construction) time: an
atomic clause binds its metric accessor and comparator but keeps the
threshold as the raw string (Python converts it with `float(value)` only
inside the returned lambda); a composite condition merely records the
fragments of the split, since the Python lambda re-parses them at every
call. -/
inductive Cond where
  | atom (m : Metric) (cmp : Comparator) (value : List Char)
  | orCond (fragments : List (List Char))
  | andCond (fragments : List (List Char))
deriving DecidableEq

/-- The parse-time part of `SequentialMetaCurriculum._parse_condition_string`:
everything executed before a lambda is returned. The unrecognized-metric
`ValueError` and the unpacking failure when the comparator split does not
give exactly three parts are caught by the `except ValueError` clause and
re-raised as an invalid-condition-string error at parse time. -/
def parse_condition_string (l : List Char) : Except String Cond :=
  if '|' ∈ l then .ok (.orCond (splitOnChar '|' l))
  else if '&' ∈ l then .ok (.andCond (splitOnChar '&' l))
  else
    match splitComparators l with
    | [metric, comparator, value] =>
      match metricOfName metric with
      | some m =>
        match comparatorOfName comparator with
        | some cmp => .ok (.atom m cmp value)
        | none => .error "Invalid condition string: invalid comparator"
      | none => .error "Invalid condition string: invalid metric name"
    | _ => .error "Invalid condition string"

/-- Models `float(value)` on the decimal literals this mini-language works
over: optional sign, digits, optional fractional part. Exponents,
`inf`/`nan` and surrounding whitespace are outside the fragment of the
`float` grammar exercised by stopping-condition strings. Returns `none`
where `float` raises `ValueError`. -/
def parseFloat (l : List Char) : Option Rat :=
  let signed : Rat × List Char :=
    match l with
    | '-' :: r => (-1, r)
    | '+' :: r => (1, r)
    | r => (1, r)
  let intPart := signed.2.takeWhile Char.isDigit
  let rest := signed.2.dropWhile Char.isDigit
  let digitsVal : List Char → Nat :=
    fun ds => ds.foldl (fun a c => a * 10 + (c.toNat - '0'.toNat)) 0
  match rest with
  | [] =>
    if intPart = [] then none
    else some (signed.1 * (digitsVal intPart : Rat))
  | '.' :: fracRest =>
    let fracPart := fracRest.takeWhile Char.isDigit
    if fracRest.dropWhile Char.isDigit ≠ [] then none
    else if intPart = [] ∧ fracPart = [] then none
    else some (signed.1 *
      ((digitsVal intPart : Rat) + (digitsVal fracPart : Rat) / (10 : Rat) ^ fracPart.length))
  | _ => none

/-- The body of the lambda returned for an atomic clause:
`metric_fn() <op> float(value)`, where the `float` conversion happens here,
at call time, and its `ValueError` propagates out of the predicate. -/
def evalAtom (M : Metrics) (m : Metric) (cmp : Comparator) (value : List Char) :
    Except String Bool :=
  match parseFloat value with
  | none => .error "could not convert string to float"
  | some x => .ok (cmp.eval (m.eval M) x)

/-- Python `any` over a generator of fallible boolean thunks: short-circuits
at the first `True`; an exception raised by a later thunk is then never
reached. -/
def anyExcept (g : α → Except String Bool) : List α → Except String Bool
  | [] => .ok false
  | x :: xs =>
    match g x with
    | .error e => .error e
    | .ok true => .ok true
    | .ok false => anyExcept g xs

/-- Python `all` over a generator of fallible boolean thunks: short-circuits
at the first `False`. -/
def allExcept (g : α → Except String Bool) : List α → Except String Bool
  | [] => .ok true
  | x :: xs =>
    match g x with
    | .error e => .error e
    | .ok false => .ok false
    | .ok true => allExcept g xs

/-- The call-time behaviour of the closures returned by
`_parse_condition_string`. The fuel argument only bounds the nesting of
composite conditions; conditions produced by the parser never nest deeper
than an OR of ANDs of atoms, so fuel `2` is always enough for them. For a
composite condition, each fragment is re-parsed and immediately evaluated,
exactly as `self._parse_condition_string(cond)()` does inside the stored
lambda, so a parse failure in a fragment surfaces at evaluation time. -/
def evalCondFuel (M : Metrics) : Nat → Cond → Except String Bool
  | _, .atom m cmp v => evalAtom M m cmp v
  | 0, .orCond _ => .error "recursion depth exceeded"
  | 0, .andCond _ => .error "recursion depth exceeded"
  | n + 1, .orCond fs =>
    anyExcept
      (fun f =>
        match parse_condition_string f with
        | .error e => .error e
        | .ok p => evalCondFuel M n p)
      fs
  | n + 1, .andCond fs =>
    allExcept
      (fun f =>
        match parse_condition_string f with
        | .error e => .error e
        | .ok p => evalCondFuel M n p)
      fs

/-- Models `self._parse_condition_string(cond)()`: re-parse a fragment at call
time and invoke the resulting predicate. -/
def evalFragment (M : Metrics) (n : Nat) (f : List Char) : Except String Bool :=
  match parse_condition_string f with
  | .error e => .error e
  | .ok p => evalCondFuel M n p

/-- Calling the closure returned by `_parse_condition_string` on the live
counters `M`. -/
def evalCond (M : Metrics) (p : Cond) : Except String Bool :=
  evalCondFuel M 2 p

/-- Parsing then evaluating a full stopping-condition string. -/
def evalConditionString (M : Metrics) (l : List Char) : Except String Bool :=
  evalFragment M 2 l

/-! ## Phase orchestrator

`SequentialMetaCurriculum`. Sub-curricula and stopping conditions are kept
abstract (`σ` and `π`): a sub-curriculum is an external collaborator whose
sampling behaviour is a parameter, and a stopping condition is evaluated
through an explicit parameter `evalC`, modelling the call of the stored
closure (for string conditions, `π := Cond` with
`evalC c s := evalCond s.metrics c`). -/

/-- State of a `SequentialMetaCurriculum` object: the fields set in its
`__init__` (`curriculum_list`, `stopping_conditions`, `_curriculum_index`,
and the stopping metrics). -/
structure MetaState (π σ : Type) where
  curriculum_list : List σ
  stopping_conditions : List π
  curriculum_index : Nat
  n_steps : Nat
  total_steps : Nat
  n_episodes : Nat
  total_episodes : Nat
  episode_returns : List Rat

namespace SequentialMetaCurriculum

/-- The phase-scoped counters of the orchestrator, as read by the metric
accessors the stopping-condition closures are bound to. -/
def MetaState.metrics (s : MetaState π σ) : Metrics :=
  { n_steps := s.n_steps
    n_episodes := s.n_episodes
    episode_returns := s.episode_returns }

/-- The construction-time checks of `SequentialMetaCurriculum.__init__`:
the two asserts on the lengths of `curriculum_list` and
`stopping_conditions` (the polymorphic normalization of curriculum entries
is external-collaborator dispatch and is not needed here). -/
def init (curriculum_list : List σ) (stopping_conditions : List π) :
    Except String (MetaState π σ) :=
  if curriculum_list.length = 0 then
    .error "Must provide at least one curriculum"
  else if stopping_conditions.length ≠ curriculum_list.length - 1 then
    .error "Stopping conditions must be one less than the number of curricula"
  else
    .ok
      { curriculum_list := curriculum_list
        stopping_conditions := stopping_conditions
        curriculum_index := 0
        n_steps := 0
        total_steps := 0
        n_episodes := 0
        total_episodes := 0
        episode_returns := [] }

/-- Python method `SequentialMetaCurriculum._parse_stopping_conditions` restricted to
string entries: each is parsed by `_parse_condition_string` at
construction time. -/
def parse_stopping_conditions (conds : List (List Char)) : Except String (List Cond) :=
  conds.mapM parse_condition_string

/-- Python method `SequentialMetaCurriculum.sample(k)`: delegates to the currently active
sub-curriculum (possibly advancing the state of that collaborator, which is
why the list entry is rewritten), decodes each sampled task through the
sub-curriculum task space and re-encodes it through the orchestrator task
space. `none` models the `IndexError` of an out-of-range
`_curriculum_index`; no field of the orchestrator itself is written. -/
def MetaState.sample (subSample : σ → Nat → σ × List τ) (decode : σ → τ → δ)
    (encode : δ → ε) (s : MetaState π σ) (k : Nat) :
    MetaState π σ × Option (List ε) :=
  match s.curriculum_list[s.curriculum_index]? with
  | none => (s, none)
  | some c =>
    let res := subSample c k
    let decoded := res.2.map (decode res.1)
    let recoded := decoded.map encode
    ({ s with curriculum_list := s.curriculum_list.set s.curriculum_index res.1 },
      some recoded)

/-- Python method `SequentialMetaCurriculum.update_on_episode`: increments the
phase-scoped and lifetime counters, appends the episode return, and then,
when `_curriculum_index < len(self.stopping_conditions)` and the stored
stopping closure returns true on the freshly updated counters, advances
the phase index by one and zeroes the phase-scoped metrics. A `some` in
the second component models an exception escaping from the predicate call
(the increments made before it persist). -/
def MetaState.update_on_episode (evalC : π → MetaState π σ → Except String Bool)
    (s : MetaState π σ) (episode_return : Rat) (episode_len : Nat) :
    MetaState π σ × Option String :=
  let s1 := { s with
    n_episodes := s.n_episodes + 1
    total_episodes := s.total_episodes + 1
    n_steps := s.n_steps + episode_len
    total_steps := s.total_steps + episode_len
    episode_returns := s.episode_returns ++ [episode_return] }
  match s1.stopping_conditions[s1.curriculum_index]? with
  | none => (s1, none)
  | some cond =>
    match evalC cond s1 with
    | .error e => (s1, some e)
    | .ok true =>
      ({ s1 with
          curriculum_index := s1.curriculum_index + 1
          n_episodes := 0
          n_steps := 0
          episode_returns := [] }, none)
    | .ok false => (s1, none)

end SequentialMetaCurriculum

/-! ## Lemmas about the flat sequencer -/

namespace SequentialCurriculum

theorem sampleAux_acc (k : Nat) (s : SeqState α) (acc : List α) :
    sampleAux k s acc =
      ((sample k s).1, (sample k s).2.map (fun ts => acc.reverse ++ ts)) := by
  induction k generalizing s acc with
  | zero => simp [sampleAux, sample, Except.map]
  | succ k ih =>
    simp only [sample, sampleAux]
    rcases h : sampleOne s with ⟨s', r⟩
    rcases r with e | t
    · simp [Except.map]
    · simp only []
      rw [ih s' (t :: acc), ih s' [t]]
      rcases hr : (sample k s').2 with e | ts
      · simp [hr, Except.map]
      · simp [hr, Except.map]

theorem sample_succ (k : Nat) (s : SeqState α) :
    sample (k + 1) s =
      match sampleOne s with
      | (s', .ok t) =>
        (match sample k s' with
         | (s'', .ok ts) => (s'', .ok (t :: ts))
         | (s'', .error e) => (s'', .error e))
      | (s', .error e) => (s', .error e) := by
  conv_lhs => rw [sample]
  simp only [sampleAux]
  rcases h : sampleOne s with ⟨s', r⟩
  rcases r with e | t
  · rfl
  · simp only []
    rw [sampleAux_acc k s' [t]]
    rcases hp : sample k s' with ⟨s'', r'⟩
    rcases r' with e | ts
    · simp [hp, Except.map]
    · simp [hp, Except.map]

theorem sample_add (a b : Nat) (s : SeqState α) :
    sample (a + b) s =
      match sample a s with
      | (s', .ok ts) =>
        (match sample b s' with
         | (s'', .ok us) => (s'', .ok (ts ++ us))
         | (s'', .error e) => (s'', .error e))
      | (s', .error e) => (s', .error e) := by
  induction a generalizing s with
  | zero =>
    simp only [Nat.zero_add]
    have h0 : sample 0 s = (s, .ok ([] : List α)) := rfl
    rw [h0]
    rcases hp : sample b s with ⟨s'', r'⟩
    rcases r' with e | us
    · simp [hp]
    · simp [hp]
  | succ a ih =>
    have hrw : a + 1 + b = (a + b) + 1 := by omega
    rw [hrw, sample_succ (a + b) s, sample_succ a s]
    rcases h : sampleOne s with ⟨s', r⟩
    rcases r with e | t
    · rfl
    · simp only []
      rw [ih s']
      rcases hp : sample a s' with ⟨s'', r'⟩
      rcases r' with e | ts
      · rfl
      · simp only []
        rcases hq : sample b s'' with ⟨sB, rB⟩
        rcases rB with e | us
        · rfl
        · rfl

theorem sampleOne_valid (s : SeqState α)
    (hlen : s.num_repeats.length = s.task_list.length)
    (hi : s.task_index < s.task_list.length) :
    sampleOne s =
      (if s.num_repeats.getD s.task_index 0 ≤ s.repeat_index + 1 then
        { s with task_index := s.task_index + 1, repeat_index := 0 }
      else { s with repeat_index := s.repeat_index + 1 },
      .ok (s.task_list.get ⟨s.task_index, hi⟩)) := by
  have hi' : s.task_index < s.num_repeats.length := by omega
  have h1 : s.task_list[s.task_index]? = some (s.task_list.get ⟨s.task_index, hi⟩) := by
    rw [List.getElem?_eq_getElem hi]
    rfl
  have h2 : s.num_repeats[s.task_index]? = some (s.num_repeats.getD s.task_index 0) := by
    rw [List.getElem?_eq_getElem hi', List.getD_eq_getElem?_getD,
      List.getElem?_eq_getElem hi']
    rfl
  simp only [sampleOne, sampleEmit]
  rw [if_neg (by omega)]
  simp only [h1, h2, ge_iff_le]
  split <;> rfl

theorem sampleOne_inv (s : SeqState α) (h : SeqInv s)
    (hi : s.task_index < s.task_list.length) : SeqInv (sampleOne s).1 := by
  rw [sampleOne_valid s h.len_eq hi]
  by_cases hc : s.num_repeats.getD s.task_index 0 ≤ s.repeat_index + 1
  · rw [if_pos hc]
    refine ⟨h.len_eq, h.pos, by simpa using hi, ?_, by simp⟩
    intro hlt
    simp only []
    have hm : s.num_repeats.getD (s.task_index + 1) 0 ∈ s.num_repeats := by
      have hb : s.task_index + 1 < s.num_repeats.length := by
        have := h.len_eq
        simpa [this] using hlt
      rw [List.getD_eq_getElem?_getD, List.getElem?_eq_getElem hb]
      exact List.getElem_mem hb
    simpa using h.pos _ hm
  · rw [if_neg hc]
    refine ⟨h.len_eq, h.pos, by simpa using le_of_lt hi, ?_, ?_⟩
    · intro _
      simp only []
      omega
    · intro hle
      simp only [] at hle
      omega

theorem remainingNat_exhausted (s : SeqState α)
    (hi : s.task_list.length ≤ s.task_index) : remainingNat s = 0 := by
  simp [remainingNat, hi]

theorem remainingNat_pos (s : SeqState α) (h : SeqInv s)
    (hi : s.task_index < s.task_list.length) : 0 < remainingNat s := by
  have hj := h.rep_lt hi
  simp only [remainingNat, if_neg (by omega : ¬ s.task_index ≥ s.task_list.length)]
  omega

theorem sum_drop_step (nr : List Nat) (i : Nat) :
    (nr.drop i).sum =
      if _hb : i < nr.length then nr.getD i 0 + (nr.drop (i + 1)).sum
      else 0 := by
  by_cases hb : i < nr.length
  · rw [dif_pos hb, List.drop_eq_getElem_cons hb, List.sum_cons,
      List.getD_eq_getElem?_getD, List.getElem?_eq_getElem hb]
    rfl
  · rw [dif_neg hb, List.drop_eq_nil_of_le (by omega), List.sum_nil]

theorem sampleOne_remainingNat (s : SeqState α) (h : SeqInv s)
    (hi0 : s.task_index < s.task_list.length) :
    remainingNat (sampleOne s).1 + 1 = remainingNat s := by
  obtain ⟨tl, nr, rl, i, j⟩ := s
  have hi : i < tl.length := hi0
  have hj : j < nr.getD i 0 := h.rep_lt hi0
  have hlen : nr.length = tl.length := h.len_eq
  rw [sampleOne_valid _ hlen hi0]
  have hd := sum_drop_step nr (i + 1)
  by_cases hc : nr.getD i 0 ≤ j + 1
  · rw [if_pos hc]
    show remainingNat ⟨tl, nr, rl, i + 1, 0⟩ + 1 = remainingNat ⟨tl, nr, rl, i, j⟩
    simp only [remainingNat, ge_iff_le]
    rw [if_neg (by omega : ¬ tl.length ≤ i)]
    by_cases hb : i + 1 < nr.length
    · rw [dif_pos hb] at hd
      rw [if_neg (by omega : ¬ tl.length ≤ i + 1)]
      omega
    · rw [dif_neg hb] at hd
      rw [if_pos (by omega : tl.length ≤ i + 1)]
      omega
  · rw [if_neg hc]
    show remainingNat ⟨tl, nr, rl, i, j + 1⟩ + 1 = remainingNat ⟨tl, nr, rl, i, j⟩
    simp only [remainingNat, ge_iff_le]
    rw [if_neg (by omega : ¬ tl.length ≤ i), if_neg (by omega : ¬ tl.length ≤ i)]
    omega

theorem expandFrom_exhausted (tl : List α) (nr : List Nat) (i j : Nat)
    (hi : tl.length ≤ i) : expandFrom tl nr i j = [] := by
  rw [expandFrom]
  rw [dif_neg (by omega)]

theorem expandFrom_eq (tl : List α) (nr : List Nat) (i j : Nat)
    (hi : i < tl.length) (hb : i < nr.length) :
    expandFrom tl nr i j =
      List.replicate (nr.getD i 0 - j) (tl.get ⟨i, hi⟩) ++ expandFrom tl nr (i + 1) 0 := by
  have h2 : nr[i]? = some (nr.getD i 0) := by
    rw [List.getElem?_eq_getElem hb, List.getD_eq_getElem?_getD,
      List.getElem?_eq_getElem hb]
    rfl
  conv_lhs => rw [expandFrom]
  rw [dif_pos hi, h2]

theorem sample_pass (n : Nat) : ∀ (s : SeqState α), SeqInv s → remainingNat s = n →
    sample n s =
      ({ s with task_index := s.task_list.length, repeat_index := 0 },
        .ok (expandFrom s.task_list s.num_repeats s.task_index s.repeat_index)) := by
  induction n with
  | zero =>
    intro s h hr
    obtain ⟨tl, nr, rl, i, j⟩ := s
    have hle : i ≤ tl.length := h.idx_le
    have hi : tl.length ≤ i := by
      by_contra hlt
      have := remainingNat_pos _ h (show i < tl.length by omega)
      omega
    have hj : j = 0 := h.rep_zero hi
    have hieq : i = tl.length := by omega
    subst hj hieq
    rw [expandFrom_exhausted tl nr tl.length 0 (le_refl _)]
    rfl
  | succ n ih =>
    intro s h hr
    obtain ⟨tl, nr, rl, i, j⟩ := s
    have hlen : nr.length = tl.length := h.len_eq
    have hi : i < tl.length := by
      by_contra hge
      rw [remainingNat_exhausted _ (show tl.length ≤ i by omega)] at hr
      omega
    have hb : i < nr.length := by omega
    have hj : j < nr.getD i 0 := h.rep_lt hi
    by_cases hc : nr.getD i 0 ≤ j + 1
    · have hstep : sampleOne (⟨tl, nr, rl, i, j⟩ : SeqState α) =
          ((⟨tl, nr, rl, i + 1, 0⟩ : SeqState α), .ok (tl.get ⟨i, hi⟩)) := by
        rw [sampleOne_valid _ hlen hi]
        rw [if_pos hc]
      have hA : SeqInv (⟨tl, nr, rl, i + 1, 0⟩ : SeqState α) := by
        have h2 := sampleOne_inv ⟨tl, nr, rl, i, j⟩ h hi
        rwa [hstep] at h2
      have hremA : remainingNat (⟨tl, nr, rl, i + 1, 0⟩ : SeqState α) = n := by
        have h2 := sampleOne_remainingNat ⟨tl, nr, rl, i, j⟩ h hi
        rw [hstep] at h2
        have h3 : remainingNat (⟨tl, nr, rl, i + 1, 0⟩ : SeqState α) + 1 =
            remainingNat (⟨tl, nr, rl, i, j⟩ : SeqState α) := h2
        omega
      have hsucc : sample (n + 1) (⟨tl, nr, rl, i, j⟩ : SeqState α) =
          (match sample n (⟨tl, nr, rl, i + 1, 0⟩ : SeqState α) with
           | (s'', .ok ts) => (s'', .ok (tl.get ⟨i, hi⟩ :: ts))
           | (s'', .error e) => (s'', .error e)) := by
        rw [sample_succ n, hstep]
      rw [hsucc, ih _ hA hremA]
      have hexp : expandFrom tl nr i j =
          tl.get ⟨i, hi⟩ :: expandFrom tl nr (i + 1) 0 := by
        rw [expandFrom_eq tl nr i j hi hb]
        have hone : nr.getD i 0 - j = 1 := by omega
        rw [hone]
        rfl
      show _ = ((⟨tl, nr, rl, tl.length, 0⟩ : SeqState α), .ok (expandFrom tl nr i j))
      rw [hexp]
    · have hstep : sampleOne (⟨tl, nr, rl, i, j⟩ : SeqState α) =
          ((⟨tl, nr, rl, i, j + 1⟩ : SeqState α), .ok (tl.get ⟨i, hi⟩)) := by
        rw [sampleOne_valid _ hlen hi]
        rw [if_neg hc]
      have hA : SeqInv (⟨tl, nr, rl, i, j + 1⟩ : SeqState α) := by
        have h2 := sampleOne_inv ⟨tl, nr, rl, i, j⟩ h hi
        rwa [hstep] at h2
      have hremA : remainingNat (⟨tl, nr, rl, i, j + 1⟩ : SeqState α) = n := by
        have h2 := sampleOne_remainingNat ⟨tl, nr, rl, i, j⟩ h hi
        rw [hstep] at h2
        have h3 : remainingNat (⟨tl, nr, rl, i, j + 1⟩ : SeqState α) + 1 =
            remainingNat (⟨tl, nr, rl, i, j⟩ : SeqState α) := h2
        omega
      have hsucc : sample (n + 1) (⟨tl, nr, rl, i, j⟩ : SeqState α) =
          (match sample n (⟨tl, nr, rl, i, j + 1⟩ : SeqState α) with
           | (s'', .ok ts) => (s'', .ok (tl.get ⟨i, hi⟩ :: ts))
           | (s'', .error e) => (s'', .error e)) := by
        rw [sample_succ n, hstep]
      rw [hsucc, ih _ hA hremA]
      have hexp : expandFrom tl nr i j =
          tl.get ⟨i, hi⟩ :: expandFrom tl nr i (j + 1) := by
        rw [expandFrom_eq tl nr i j hi hb, expandFrom_eq tl nr i (j + 1) hi hb]
        have h1 : nr.getD i 0 - j = (nr.getD i 0 - (j + 1)) + 1 := by omega
        rw [h1, List.replicate_succ, List.cons_append]
      show _ = ((⟨tl, nr, rl, tl.length, 0⟩ : SeqState α), .ok (expandFrom tl nr i j))
      rw [hexp]

theorem expandFrom_drop (tl : List α) (nr : List Nat) :
    ∀ d i, tl.length - i = d → expandFrom tl nr i 0 = expand (tl.drop i) (nr.drop i) := by
  intro d
  induction d with
  | zero =>
    intro i hd
    rw [expandFrom_exhausted tl nr i 0 (by omega)]
    rw [List.drop_eq_nil_of_le (by omega : tl.length ≤ i)]
    simp [expand]
  | succ d ihd =>
    intro i hd
    have hi : i < tl.length := by omega
    by_cases hb : i < nr.length
    · rw [expandFrom_eq tl nr i 0 hi hb]
      rw [List.drop_eq_getElem_cons hi, List.drop_eq_getElem_cons hb]
      have hgd : nr.getD i 0 = nr[i] := by
        rw [List.getD_eq_getElem?_getD, List.getElem?_eq_getElem hb]
        rfl
      simp only [expand, List.zipWith_cons_cons, List.flatten_cons]
      rw [ihd (i + 1) (by omega)]
      simp only [expand, hgd, Nat.sub_zero]
      congr 1
    · conv_lhs => rw [expandFrom]
      rw [dif_pos hi, List.getElem?_eq_none (by omega : nr.length ≤ i)]
      rw [List.drop_eq_getElem_cons hi, List.drop_eq_nil_of_le (by omega : nr.length ≤ i)]
      simp [expand]

theorem expandFrom_zero (tl : List α) (nr : List Nat) :
    expandFrom tl nr 0 0 = expand tl nr := by
  have := expandFrom_drop tl nr tl.length 0 (by omega)
  simpa using this

theorem sampleOne_wrap (s : SeqState α) (hrl : s.repeat_list = true)
    (hi : s.task_list.length ≤ s.task_index) :
    sampleOne s = sampleOne { s with task_index := 0 } := by
  obtain ⟨tl, nr, rl, i, j⟩ := s
  have hrl' : rl = true := hrl
  subst hrl'
  have hi' : tl.length ≤ i := hi
  show sampleOne ⟨tl, nr, true, i, j⟩ = sampleOne ⟨tl, nr, true, 0, j⟩
  simp only [sampleOne, ge_iff_le]
  by_cases h0 : tl.length = 0
  · simp [h0]
  · simp [hi', show ¬ tl.length ≤ 0 by omega]

theorem sample_wrap (k : Nat) (s : SeqState α) (hrl : s.repeat_list = true)
    (hi : s.task_list.length ≤ s.task_index) :
    sample (k + 1) s = sample (k + 1) { s with task_index := 0 } := by
  rw [sample_succ k s, sample_succ k { s with task_index := 0 },
    sampleOne_wrap s hrl hi]

theorem flatten_replicate_nil (m : Nat) :
    (List.replicate m ([] : List α)).flatten = [] := by
  induction m with
  | zero => rfl
  | succ m ih => simp [List.replicate_succ, ih]

theorem fresh_inv (tl : List α) (nr : List Nat) (rl : Bool)
    (hlen : nr.length = tl.length) (hpos : ∀ r ∈ nr, 0 < r) :
    SeqInv (⟨tl, nr, rl, 0, 0⟩ : SeqState α) := by
  refine ⟨hlen, hpos, by show 0 ≤ tl.length; omega, ?_, ?_⟩
  · intro hlt
    have hlt' : 0 < tl.length := hlt
    have hb : 0 < nr.length := by omega
    show 0 < nr.getD 0 0
    rw [List.getD_eq_getElem?_getD, List.getElem?_eq_getElem hb]
    exact hpos _ (List.getElem_mem hb)
  · intro hle
    rfl

theorem remainingNat_fresh (tl : List α) (nr : List Nat) (rl : Bool)
    (hlen : nr.length = tl.length) :
    remainingNat (⟨tl, nr, rl, 0, 0⟩ : SeqState α) = nr.sum := by
  by_cases h0 : tl.length = 0
  · have hnr : nr = [] := by
      cases nr with
      | nil => rfl
      | cons a l => simp at hlen; omega
    subst hnr
    simp [remainingNat, h0]
  · simp only [remainingNat, ge_iff_le]
    rw [if_neg (show ¬ tl.length ≤ 0 by omega)]
    have hb : 0 < nr.length := by omega
    have hd := sum_drop_step nr 0
    rw [dif_pos hb] at hd
    have hdrop : nr.drop 0 = nr := List.drop_zero nr
    rw [hdrop] at hd
    omega

theorem past_end_inv (tl : List α) (nr : List Nat) (rl : Bool)
    (hlen : nr.length = tl.length) (hpos : ∀ r ∈ nr, 0 < r) :
    SeqInv (⟨tl, nr, rl, tl.length, 0⟩ : SeqState α) := by
  refine ⟨hlen, hpos, le_refl _, ?_, ?_⟩
  · intro hlt
    have : tl.length < tl.length := hlt
    omega
  · intro _
    rfl

theorem sample_cycle (tl : List α) (nr : List Nat)
    (hlen : nr.length = tl.length) (hpos : ∀ r ∈ nr, 0 < r) (m : Nat) :
    sample (m * nr.sum) (⟨tl, nr, true, tl.length, 0⟩ : SeqState α) =
      ((⟨tl, nr, true, tl.length, 0⟩ : SeqState α),
        .ok ((List.replicate m (expand tl nr)).flatten)) := by
  induction m with
  | zero =>
    rw [Nat.zero_mul]
    rfl
  | succ m ih =>
    by_cases h0 : tl.length = 0
    · have hnr : nr = [] := by
        cases nr with
        | nil => rfl
        | cons a l => simp at hlen; omega
      subst hnr
      have htl : tl = [] := by
        cases tl with
        | nil => rfl
        | cons a l => simp at h0
      subst htl
      simp only [List.sum_nil, Nat.mul_zero]
      have hE : expand ([] : List α) ([] : List Nat) = [] := rfl
      rw [hE, flatten_replicate_nil]
      rfl
    · have hsum : 0 < nr.sum := by
        have hb : 0 < nr.length := by omega
        have hd := sum_drop_step nr 0
        rw [dif_pos hb] at hd
        rw [List.drop_zero nr] at hd
        have hmem : nr.getD 0 0 ∈ nr := by
          rw [List.getD_eq_getElem?_getD, List.getElem?_eq_getElem hb]
          exact List.getElem_mem hb
        have := hpos _ hmem
        omega
      have hmul : (m + 1) * nr.sum = nr.sum + m * nr.sum := by ring
      obtain ⟨q, hq⟩ : ∃ q, nr.sum = q + 1 := ⟨nr.sum - 1, by omega⟩
      have hwrap : sample nr.sum (⟨tl, nr, true, tl.length, 0⟩ : SeqState α) =
          sample nr.sum (⟨tl, nr, true, 0, 0⟩ : SeqState α) := by
        rw [hq]
        exact sample_wrap q ⟨tl, nr, true, tl.length, 0⟩ rfl (le_refl _)
      have hpass : sample nr.sum (⟨tl, nr, true, 0, 0⟩ : SeqState α) =
          ((⟨tl, nr, true, tl.length, 0⟩ : SeqState α), .ok (expand tl nr)) := by
        have h1 := sample_pass nr.sum (⟨tl, nr, true, 0, 0⟩ : SeqState α)
          (fresh_inv tl nr true hlen hpos) (remainingNat_fresh tl nr true hlen)
        rw [expandFrom_zero tl nr] at h1
        exact h1
      have hstep2 : sample (nr.sum + m * nr.sum)
            (⟨tl, nr, true, tl.length, 0⟩ : SeqState α) =
          (match sample (m * nr.sum) (⟨tl, nr, true, tl.length, 0⟩ : SeqState α) with
           | (s'', .ok us) => (s'', .ok (expand tl nr ++ us))
           | (s'', .error e) => (s'', .error e)) := by
        rw [sample_add nr.sum (m * nr.sum) ⟨tl, nr, true, tl.length, 0⟩, hwrap, hpass]
      rw [hmul, hstep2, ih]
      simp [List.replicate_succ]

theorem remaining_tasks_eq_remainingNat (s : SeqState α) (h : SeqInv s) :
    remaining_tasks s = some ((remainingNat s : Nat) : Int) := by
  obtain ⟨tl, nr, rl, i, j⟩ := s
  have hlen : nr.length = tl.length := h.len_eq
  show remaining_tasks ⟨tl, nr, rl, i, j⟩ = _
  by_cases hi : tl.length ≤ i
  · rw [remainingNat_exhausted _ hi]
    simp [remaining_tasks, hi]
  · have hi' : i < tl.length := by omega
    have hb : i < nr.length := by omega
    have hj : j < nr.getD i 0 := h.rep_lt hi'
    have h2 : nr[i]? = some (nr.getD i 0) := by
      rw [List.getElem?_eq_getElem hb, List.getD_eq_getElem?_getD,
        List.getElem?_eq_getElem hb]
      rfl
    simp only [remaining_tasks, remainingNat, ge_iff_le]
    rw [if_neg hi, if_neg hi, h2]
    show some ((nr.getD i 0 : Int) - (j : Int) + ((nr.drop (i + 1)).sum : Int)) =
      some ((nr.getD i 0 - j + (nr.drop (i + 1)).sum : Nat) : Int)
    congr 1
    omega

end SequentialCurriculum

/-! ## Lemmas about the condition engine -/

theorem consHead_ne_nil (c : Char) (ll : List (List Char)) : consHead c ll ≠ [] := by
  cases ll <;> simp [consHead]

theorem splitComparators_cons2 (c : Char) (b : List Char) (hc : c = '<' ∨ c = '>') :
    splitComparators (c :: '=' :: b) = [] :: [c, '='] :: splitComparators b := by
  rw [splitComparators.eq_def]
  simp [hc]

theorem splitComparators_cons_clean (ch : Char) (t : List Char)
    (h1 : ch ≠ '<') (h2 : ch ≠ '>') (h3 : ch ≠ '=') :
    splitComparators (ch :: t) = consHead ch (splitComparators t) := by
  cases t with
  | nil =>
    rw [splitComparators.eq_def]
    simp [h1, h2, h3]
  | cons c2 t2 =>
    by_cases hc2 : c2 = '='
    · subst hc2
      rw [splitComparators.eq_def]
      simp [h1, h2, h3]
    · rw [splitComparators.eq_def]
      simp [h1, h2, h3, hc2]

theorem splitComparators_cons_sep (c : Char) (b : List Char)
    (hc : c = '<' ∨ c = '>' ∨ c = '=') (hb : b.head? ≠ some '=') :
    splitComparators (c :: b) = [] :: [c] :: splitComparators b := by
  cases b with
  | nil =>
    rw [splitComparators.eq_def]
    rcases hc with h | h | h <;> simp [h]
  | cons c2 t2 =>
    have hc2 : c2 ≠ '=' := by
      intro hh
      apply hb
      rw [hh]
      rfl
    rw [splitComparators.eq_def]
    rcases hc with h | h | h <;> simp [h, hc2]

theorem splitComparators_clean (b : List Char)
    (hb : ∀ ch ∈ b, ch ≠ '<' ∧ ch ≠ '>' ∧ ch ≠ '=') :
    splitComparators b = [b] := by
  induction b with
  | nil => rfl
  | cons ch t ih =>
    have hch := hb ch (by simp)
    rw [splitComparators_cons_clean ch t hch.1 hch.2.1 hch.2.2]
    rw [ih (fun c hc => hb c (by simp [hc]))]
    rfl

theorem splitComparators_append_clean (a : List Char)
    (ha : ∀ ch ∈ a, ch ≠ '<' ∧ ch ≠ '>' ∧ ch ≠ '=') (rest : List Char) :
    ∀ f fs, splitComparators rest = f :: fs →
      splitComparators (a ++ rest) = (a ++ f) :: fs := by
  induction a with
  | nil =>
    intro f fs hr
    simpa using hr
  | cons ch a' ih =>
    intro f fs hr
    have hch := ha ch (by simp)
    have hstep : splitComparators (ch :: (a' ++ rest)) =
        consHead ch (splitComparators (a' ++ rest)) :=
      splitComparators_cons_clean ch (a' ++ rest) hch.1 hch.2.1 hch.2.2
    show splitComparators (ch :: (a' ++ rest)) = _
    rw [hstep, ih (fun c hc => ha c (by simp [hc])) f fs hr]
    rfl

theorem comparatorName_split (c : Comparator) (v : List Char)
    (hv : ∀ ch ∈ v, ch ≠ '<' ∧ ch ≠ '>' ∧ ch ≠ '=') :
    splitComparators (c.name ++ v) = [] :: c.name :: [v] := by
  have hclean := splitComparators_clean v hv
  have hhead : v.head? ≠ some '=' := by
    cases v with
    | nil => simp
    | cons ch t =>
      have := hv ch (by simp)
      simp [this.2.2]
  cases c
  · rw [show Comparator.name .lt ++ v = '<' :: v from rfl,
      splitComparators_cons_sep '<' v (by simp) hhead, hclean]
    rfl
  · rw [show Comparator.name .gt ++ v = '>' :: v from rfl,
      splitComparators_cons_sep '>' v (by simp) hhead, hclean]
    rfl
  · rw [show Comparator.name .le ++ v = '<' :: '=' :: v from rfl,
      splitComparators_cons2 '<' v (by simp), hclean]
    rfl
  · rw [show Comparator.name .ge ++ v = '>' :: '=' :: v from rfl,
      splitComparators_cons2 '>' v (by simp), hclean]
    rfl
  · rw [show Comparator.name .eq ++ v = '=' :: v from rfl,
      splitComparators_cons_sep '=' v (by simp) hhead, hclean]
    rfl

theorem splitComparators_atomic (m : Metric) (c : Comparator) (v : List Char)
    (hv : ∀ ch ∈ v, ch ≠ '<' ∧ ch ≠ '>' ∧ ch ≠ '=') :
    splitComparators (m.name ++ (c.name ++ v)) = [m.name, c.name, v] := by
  have hm : ∀ ch ∈ m.name, ch ≠ '<' ∧ ch ≠ '>' ∧ ch ≠ '=' := by
    cases m <;> decide
  have hmid := comparatorName_split c v hv
  have := splitComparators_append_clean m.name hm (c.name ++ v) [] (c.name :: [v]) hmid
  simpa using this

theorem anyExcept_ok (g : α → Except String Bool) (b : α → Bool) :
    ∀ xs, (∀ x ∈ xs, g x = .ok (b x)) → anyExcept g xs = .ok (xs.any b) := by
  intro xs
  induction xs with
  | nil => intro _; rfl
  | cons x xs ih =>
    intro hall
    have hx := hall x (by simp)
    simp only [anyExcept, hx]
    cases hbx : b x with
    | true => simp [hbx]
    | false =>
      rw [ih (fun y hy => hall y (by simp [hy]))]
      simp [hbx]

theorem allExcept_ok (g : α → Except String Bool) (b : α → Bool) :
    ∀ xs, (∀ x ∈ xs, g x = .ok (b x)) → allExcept g xs = .ok (xs.all b) := by
  intro xs
  induction xs with
  | nil => intro _; rfl
  | cons x xs ih =>
    intro hall
    have hx := hall x (by simp)
    simp only [allExcept, hx]
    cases hbx : b x with
    | false => simp [hbx]
    | true =>
      rw [ih (fun y hy => hall y (by simp [hy]))]
      simp [hbx]

/-! ## Claim theorems: flat sequencer -/

namespace SequentialCurriculum

/-- C2: with `repeat_list=False` and `task_list=[10, 20]`,
`num_repeats=[1, 1]`, the first `sum(num_repeats) = 2` calls to `sample(1)`
succeed and the third raises the exhaustion error reporting `2` samples
drawn — but, contrary to the claim, the fourth call does NOT raise again:
because the implementation resets `_task_index` to `0` before raising, the
call after the error restarts the list and returns `[task_list[0]]`. This
evaluates the implementation at the failing input. -/
theorem sample_exhaustion_behavior :
    (sample 1 (init ([10, 20] : List Nat) (some [1, 1]) false)).2 = .ok [10] ∧
    (sample 1 (sample 1 (init ([10, 20] : List Nat) (some [1, 1]) false)).1).2 =
      .ok [20] ∧
    (sample 1 (sample 1
        (sample 1 (init ([10, 20] : List Nat) (some [1, 1]) false)).1).1).2 =
      .error (.exhausted 2) ∧
    (sample 1 (sample 1 (sample 1
        (sample 1 (init ([10, 20] : List Nat) (some [1, 1]) false)).1).1).1).2 =
      .ok [10] := by
  decide

/-- C4 (counterexample): constructing a `SequentialCurriculum` with
`task_list` of length 2 and `num_repeats` of length 1 succeeds and stores
the mismatched lists — no validation happens — whereas the validating
constructor described by the spec (`initSpec`) rejects the same input. -/
theorem init_skips_length_validation :
    (init ([10, 20] : List Nat) (some [1]) true).num_repeats.length = 1 ∧
    (init ([10, 20] : List Nat) (some [1]) true).task_list.length = 2 ∧
    initSpec ([10, 20] : List Nat) (some [1]) true =
      .error "num_repeats must match task_list in length" := by
  decide

/-- C4 (amended): construction performs no length validation — an
explicitly provided `num_repeats` is stored exactly as given, for every
pair of lengths — and when `num_repeats` is omitted it defaults to a repeat
count of 1 for every task (`[1] * len(task_list)`). -/
theorem init_fields_unvalidated {α : Type} (tl : List α) (nr : List Nat) (b : Bool) :
    init tl (some nr) b =
      { task_list := tl, num_repeats := nr, repeat_list := b,
        task_index := 0, repeat_index := 0 } ∧
    init tl none b =
      { task_list := tl, num_repeats := List.replicate tl.length 1, repeat_list := b,
        task_index := 0, repeat_index := 0 } :=
  ⟨rfl, rfl⟩

/-- C5: for a freshly constructed sequencer with `repeat_list=True`, with
`num_repeats` matching `task_list` in length and all positive,
`sample(sum(num_repeats) * m)` returns each task repeated exactly its
repeat count, in the original list order, cycled `m` full times through
the list. -/
theorem sample_cyclic (tl : List α) (nr : List Nat)
    (hlen : nr.length = tl.length) (hpos : ∀ r ∈ nr, 0 < r) (m : Nat) :
    (sample (nr.sum * m) (init tl (some nr) true)).2 =
      .ok ((List.replicate m (expand tl nr)).flatten) := by
  cases m with
  | zero =>
    rw [Nat.mul_zero]
    rfl
  | succ m =>
    have hpass : sample nr.sum (⟨tl, nr, true, 0, 0⟩ : SeqState α) =
        ((⟨tl, nr, true, tl.length, 0⟩ : SeqState α), .ok (expand tl nr)) := by
      have h1 := sample_pass nr.sum (⟨tl, nr, true, 0, 0⟩ : SeqState α)
        (fresh_inv tl nr true hlen hpos) (remainingNat_fresh tl nr true hlen)
      rw [expandFrom_zero tl nr] at h1
      exact h1
    have hstep : sample (nr.sum + m * nr.sum) (⟨tl, nr, true, 0, 0⟩ : SeqState α) =
        (match sample (m * nr.sum) (⟨tl, nr, true, tl.length, 0⟩ : SeqState α) with
         | (s'', .ok us) => (s'', .ok (expand tl nr ++ us))
         | (s'', .error e) => (s'', .error e)) := by
      rw [sample_add nr.sum (m * nr.sum) ⟨tl, nr, true, 0, 0⟩, hpass]
    show (sample (nr.sum * (m + 1)) (⟨tl, nr, true, 0, 0⟩ : SeqState α)).2 = _
    rw [show nr.sum * (m + 1) = nr.sum + m * nr.sum by ring]
    rw [hstep, sample_cycle tl nr hlen hpos m]
    simp [List.replicate_succ]

/-- Witness for C5 at `task_list=[10, 20]`, `num_repeats=[2, 1]`, `m=2`. -/
theorem sample_cyclic_witness :
    (sample (([2, 1] : List Nat).sum * 2)
        (init ([10, 20] : List Nat) (some [2, 1]) true)).2 =
      .ok [10, 10, 20, 10, 10, 20] := by
  have h := sample_cyclic ([10, 20] : List Nat) [2, 1] (by decide) (by decide) 2
  exact h.trans (by decide)

/-- C9: under the cursor invariant, `remaining_tasks()` is `0` exactly when
the single pass is exhausted; and from any not-yet-exhausted position a
`sample(1)` call succeeds and decreases `remaining_tasks()` by exactly 1
(the invariant being preserved, so this applies along the whole pass). -/
theorem remaining_tasks_spec (s : SeqState α) (h : SeqInv s) :
    (remaining_tasks s = some 0 ↔ s.task_list.length ≤ s.task_index) ∧
    (s.task_index < s.task_list.length →
      ∃ s' t r, sample 1 s = (s', .ok [t]) ∧
        remaining_tasks s = some r ∧ remaining_tasks s' = some (r - 1) ∧
        0 < r ∧ SeqInv s') := by
  constructor
  · rw [remaining_tasks_eq_remainingNat s h]
    constructor
    · intro h0
      by_contra hlt
      have hpos := remainingNat_pos s h (by omega)
      have : ((remainingNat s : Nat) : Int) = 0 := by
        exact Option.some.inj h0
      omega
    · intro hge
      rw [remainingNat_exhausted s hge]
      rfl
  · intro hi
    have hstep := sampleOne_valid s h.len_eq hi
    have hinv' := sampleOne_inv s h hi
    have hrem := sampleOne_remainingNat s h hi
    refine ⟨(sampleOne s).1, s.task_list.get ⟨s.task_index, hi⟩,
      ((remainingNat s : Nat) : Int), ?_, ?_, ?_, ?_, hinv'⟩
    · rw [sample_succ 0 s, hstep]
      rfl
    · exact remaining_tasks_eq_remainingNat s h
    · rw [remaining_tasks_eq_remainingNat _ hinv']
      congr 1
      omega
    · have := remainingNat_pos s h hi
      omega

/-- Witness for C9 at the fresh state with `task_list=[10, 20]`,
`num_repeats=[2, 1]`, `repeat_list=False`. -/
theorem remaining_tasks_spec_witness :
    ∃ s' t r, sample 1 (init ([10, 20] : List Nat) (some [2, 1]) false) = (s', .ok [t]) ∧
      remaining_tasks (init ([10, 20] : List Nat) (some [2, 1]) false) = some r ∧
      remaining_tasks s' = some (r - 1) ∧ 0 < r ∧ SeqInv s' := by
  have h := remaining_tasks_spec (init ([10, 20] : List Nat) (some [2, 1]) false)
    ⟨by decide, by decide, by decide, by decide, by decide⟩
  exact h.2 (by decide)

end SequentialCurriculum

/-! ## Claim theorems: condition engine -/

/-- C3 (counterexample): the condition string `"steps>=abc"` has a
non-numeric threshold literal, yet `_parse_condition_string` accepts it at
construction time (returning a predicate) instead of raising a
configuration error; the `float` conversion error surfaces only at the
first evaluation of the predicate. -/
theorem parse_accepts_nonnumeric_threshold :
    parse_condition_string ("steps>=abc".toList) =
      .ok (.atom .steps .ge ("abc".toList)) ∧
    evalConditionString ⟨0, 0, []⟩ ("steps>=abc".toList) =
      .error "could not convert string to float" := by
  decide

/-- C3 (amended): in an atomic top-level condition, an unrecognized metric
name and a malformed clause (token count other than three) do fail at
parse time; but a non-numeric threshold literal passes parsing and only
raises at the first evaluation of the predicate, and inside composite
conditions (`|` or `&`) all clause validation, including the metric name,
is deferred to the first evaluation. -/
theorem condition_error_timing (M : Metrics) :
    (parse_condition_string ("steps>=abc".toList) =
      .ok (.atom .steps .ge ("abc".toList))) ∧
    (evalCond M (.atom .steps .ge ("abc".toList)) =
      .error "could not convert string to float") ∧
    (∀ l ms cs vs, '|' ∉ l → '&' ∉ l → splitComparators l = [ms, cs, vs] →
      metricOfName ms = none →
      parse_condition_string l = .error "Invalid condition string: invalid metric name") ∧
    (∀ l, '|' ∉ l → '&' ∉ l → (∀ ms cs vs, splitComparators l ≠ [ms, cs, vs]) →
      parse_condition_string l = .error "Invalid condition string") ∧
    (∀ m c v, parseFloat v = none →
      evalCond M (.atom m c v) = .error "could not convert string to float") ∧
    (parse_condition_string ("bogus>=1|steps>=2".toList) =
      .ok (.orCond ["bogus>=1".toList, "steps>=2".toList])) ∧
    (evalConditionString M ("bogus>=1|steps>=2".toList) =
      .error "Invalid condition string: invalid metric name") := by
  refine ⟨by decide, rfl, ?gA, ?gB, ?gC, by decide, rfl⟩
  case gA =>
    intro l ms cs vs h1 h2 hsplit hm
    simp only [parse_condition_string]
    rw [if_neg h1, if_neg h2, hsplit]
    simp only [hm]
  case gB =>
    intro l h1 h2 hnot
    simp only [parse_condition_string]
    rw [if_neg h1, if_neg h2]
  case gC =>
    intro m c v hv
    simp only [evalCond, evalCondFuel, evalAtom, hv]

/-- C6: if a condition string contains `|` it is split on `|` and the
predicate is the short-circuit logical OR of the per-fragment predicates;
otherwise, if it contains `&`, it is AND-split likewise; the `|` test
happens before the `&` test at every recursion level, so a string holding
both operators is OR-split first and a fragment still containing `&` is
then AND-split when it is re-parsed at evaluation time. -/
theorem parse_or_precedes_and (l : List Char) (M : Metrics) :
    ('|' ∈ l → parse_condition_string l = .ok (.orCond (splitOnChar '|' l))) ∧
    ('|' ∉ l → '&' ∈ l →
      parse_condition_string l = .ok (.andCond (splitOnChar '&' l))) ∧
    (∀ fs (b : List Char → Bool), (∀ f ∈ fs, evalFragment M 1 f = .ok (b f)) →
      evalCond M (.orCond fs) = .ok (fs.any b)) ∧
    (∀ fs (b : List Char → Bool), (∀ f ∈ fs, evalFragment M 1 f = .ok (b f)) →
      evalCond M (.andCond fs) = .ok (fs.all b)) ∧
    (∀ f, '|' ∉ f → '&' ∈ f →
      evalFragment M 1 f = evalCondFuel M 1 (.andCond (splitOnChar '&' f))) := by
  refine ⟨?_, ?_, ?_, ?_, ?_⟩
  · intro h
    simp only [parse_condition_string]
    rw [if_pos h]
  · intro h1 h2
    simp only [parse_condition_string]
    rw [if_neg h1, if_pos h2]
  · intro fs b hall
    exact anyExcept_ok _ b fs hall
  · intro fs b hall
    exact allExcept_ok _ b fs hall
  · intro f h1 h2
    have hp : parse_condition_string f = .ok (.andCond (splitOnChar '&' f)) := by
      simp only [parse_condition_string]
      rw [if_neg h1, if_pos h2]
    simp only [evalFragment, hp]

/-- Witness for C6 on `"steps>=100|episodes>=5&steps>=1"` with live
counters `n_steps=1`, `n_episodes=6`. -/
theorem parse_or_precedes_and_witness :
    parse_condition_string ("steps>=100|episodes>=5&steps>=1".toList) =
      .ok (.orCond ["steps>=100".toList, "episodes>=5&steps>=1".toList]) ∧
    evalCond ⟨1, 6, []⟩
        (.orCond ["steps>=100".toList, "episodes>=5&steps>=1".toList]) =
      .ok true := by
  have h := parse_or_precedes_and ("steps>=100|episodes>=5&steps>=1".toList) ⟨1, 6, []⟩
  refine ⟨h.1 (by decide), ?_⟩
  have h3 := h.2.2.1 ["steps>=100".toList, "episodes>=5&steps>=1".toList]
    (fun f => decide (f = "episodes>=5&steps>=1".toList))
    (by with_unfolding_all decide)
  exact h3.trans (by decide)

/-- C7: an atomic clause `metric ++ comparator ++ value` (with the value
free of comparator and operator characters) splits into exactly the three
parts `[metric, comparator, value]` — the two-character comparators `<=`
and `>=` being matched in preference to `<` and `>` — parses to the atom
binding that metric and comparator, and the resulting predicate applies
the standard numeric relation of the comparator to the metric value and
the parsed threshold, with `=` meaning exact equality. -/
theorem atomic_clause_spec (m : Metric) (c : Comparator) (v : List Char) (M : Metrics)
    (hv : ∀ ch ∈ v, ch ≠ '<' ∧ ch ≠ '>' ∧ ch ≠ '=' ∧ ch ≠ '|' ∧ ch ≠ '&') :
    splitComparators (m.name ++ c.name ++ v) = [m.name, c.name, v] ∧
    parse_condition_string (m.name ++ c.name ++ v) = .ok (.atom m c v) ∧
    (∀ x, parseFloat v = some x →
      evalCond M (.atom m c v) = .ok (c.eval (m.eval M) x)) ∧
    (∀ x, parseFloat v = some x →
      (evalCond M (.atom m c v) = .ok true ↔ c.rel (m.eval M) x)) := by
  have hv3 : ∀ ch ∈ v, ch ≠ '<' ∧ ch ≠ '>' ∧ ch ≠ '=' := by
    intro ch hc
    exact ⟨(hv ch hc).1, (hv ch hc).2.1, (hv ch hc).2.2.1⟩
  have hsplit : splitComparators (m.name ++ c.name ++ v) = [m.name, c.name, v] := by
    rw [List.append_assoc]
    exact splitComparators_atomic m c v hv3
  have hpipe : '|' ∉ m.name ++ c.name ++ v := by
    intro hmem
    rcases List.mem_append.mp hmem with h' | h'
    · rcases List.mem_append.mp h' with h'' | h''
      · revert h''
        cases m <;> decide
      · revert h''
        cases c <;> decide
    · exact ((hv _ h').2.2.2.1) rfl
  have hamp : '&' ∉ m.name ++ c.name ++ v := by
    intro hmem
    rcases List.mem_append.mp hmem with h' | h'
    · rcases List.mem_append.mp h' with h'' | h''
      · revert h''
        cases m <;> decide
      · revert h''
        cases c <;> decide
    · exact ((hv _ h').2.2.2.2) rfl
  have hmet : metricOfName m.name = some m := by
    cases m <;> rfl
  have hcmp : comparatorOfName c.name = some c := by
    cases c <;> rfl
  have hparse : parse_condition_string (m.name ++ c.name ++ v) = .ok (.atom m c v) := by
    simp only [parse_condition_string]
    rw [if_neg hpipe, if_neg hamp, hsplit]
    simp only [hmet, hcmp]
  have heval : ∀ x, parseFloat v = some x →
      evalCond M (.atom m c v) = .ok (c.eval (m.eval M) x) := by
    intro x hx
    simp only [evalCond, evalCondFuel, evalAtom, hx]
  refine ⟨hsplit, hparse, heval, ?_⟩
  intro x hx
  rw [heval x hx]
  cases c <;>
    simp [Comparator.eval, Comparator.rel]

/-- Witness for C7 on the clause `"episodes<=3"` with `n_episodes=2`:
the clause is split on `<=` (not mis-split on `<`) and evaluates with the
`≤` relation. -/
theorem atomic_clause_spec_witness :
    splitComparators ("episodes<=3".toList) =
      ["episodes".toList, "<=".toList, "3".toList] ∧
    parse_condition_string ("episodes<=3".toList) =
      .ok (.atom .episodes .le ("3".toList)) ∧
    evalCond ⟨0, 2, []⟩ (.atom .episodes .le ("3".toList)) = .ok true := by
  have h := atomic_clause_spec .episodes .le ("3".toList) ⟨0, 2, []⟩ (by decide)
  have hx : parseFloat ("3".toList) = some 3 := by with_unfolding_all decide
  exact ⟨h.1, h.2.1, (h.2.2.1 3 hx).trans (by with_unfolding_all decide)⟩

/-- C8: the `episode_return` metric evaluates to the arithmetic mean of the
phase-scoped returns when at least one has been collected, and to `0`
(total, no division-by-zero error) when none have been. -/
theorem episode_return_metric (M : Metrics) :
    (M.episode_returns = [] → M.get_episode_return = 0) ∧
    (M.episode_returns ≠ [] →
      M.get_episode_return = M.episode_returns.sum / (M.episode_returns.length : Rat)) ∧
    Metric.eval .episode_return M = M.get_episode_return := by
  refine ⟨?_, ?_, rfl⟩
  · intro h
    simp [Metrics.get_episode_return, h]
  · intro h
    simp [Metrics.get_episode_return, List.length_pos.mpr h]

/-- Witness for C8 with no collected returns: the metric reads `0`. -/
theorem episode_return_metric_witness :
    Metrics.get_episode_return ⟨0, 0, []⟩ = 0 :=
  (episode_return_metric ⟨0, 0, []⟩).1 rfl

/-! ## Claim theorems: phase orchestrator -/

namespace SequentialMetaCurriculum

/-- C1: `update_on_episode` always increments the lifetime episode count by
1 and the lifetime step count by `episode_len`; the phase index either
stays or advances by exactly 1 (never more, even if the predicate of the
next phase would also hold); it advances exactly when a stopping condition
is installed at the current index (i.e. the active phase is not the last)
and that predicate evaluates true on the freshly incremented counters; on
a transition the phase-scoped episode count, step count and returns list
are reset to `0`, `0` and empty, and otherwise they carry the increment
and the appended return. -/
theorem update_on_episode_spec {π σ : Type}
    (evalC : π → MetaState π σ → Except String Bool)
    (s : MetaState π σ) (r : Rat) (el : Nat) :
    (MetaState.update_on_episode evalC s r el).1.total_episodes =
        s.total_episodes + 1 ∧
    (MetaState.update_on_episode evalC s r el).1.total_steps = s.total_steps + el ∧
    ((MetaState.update_on_episode evalC s r el).1.curriculum_index =
        s.curriculum_index ∨
      (MetaState.update_on_episode evalC s r el).1.curriculum_index =
        s.curriculum_index + 1) ∧
    ((MetaState.update_on_episode evalC s r el).1.curriculum_index =
        s.curriculum_index + 1 ↔
      (∃ c, s.stopping_conditions[s.curriculum_index]? = some c ∧
        evalC c { s with
          n_episodes := s.n_episodes + 1, total_episodes := s.total_episodes + 1,
          n_steps := s.n_steps + el, total_steps := s.total_steps + el,
          episode_returns := s.episode_returns ++ [r] } = .ok true)) ∧
    ((MetaState.update_on_episode evalC s r el).1.curriculum_index =
        s.curriculum_index + 1 →
      (MetaState.update_on_episode evalC s r el).1.n_episodes = 0 ∧
      (MetaState.update_on_episode evalC s r el).1.n_steps = 0 ∧
      (MetaState.update_on_episode evalC s r el).1.episode_returns = []) ∧
    ((MetaState.update_on_episode evalC s r el).1.curriculum_index =
        s.curriculum_index →
      (MetaState.update_on_episode evalC s r el).1.n_episodes = s.n_episodes + 1 ∧
      (MetaState.update_on_episode evalC s r el).1.n_steps = s.n_steps + el ∧
      (MetaState.update_on_episode evalC s r el).1.episode_returns =
        s.episode_returns ++ [r]) := by
  rcases hq : s.stopping_conditions[s.curriculum_index]? with _ | c
  · have hres : MetaState.update_on_episode evalC s r el =
        ({ s with
            n_episodes := s.n_episodes + 1
            total_episodes := s.total_episodes + 1
            n_steps := s.n_steps + el
            total_steps := s.total_steps + el
            episode_returns := s.episode_returns ++ [r] }, none) := by
      simp only [MetaState.update_on_episode, hq]
    rw [hres]
    refine ⟨rfl, rfl, Or.inl rfl, ?_, ?_, ?_⟩
    · constructor
      · intro habs
        have habs' : s.curriculum_index = s.curriculum_index + 1 := habs
        omega
      · rintro ⟨c, hc, _⟩
        cases hc
    · intro habs
      have habs' : s.curriculum_index = s.curriculum_index + 1 := habs
      omega
    · intro _
      exact ⟨rfl, rfl, rfl⟩
  · rcases he : evalC c { s with
        n_episodes := s.n_episodes + 1, total_episodes := s.total_episodes + 1,
        n_steps := s.n_steps + el, total_steps := s.total_steps + el,
        episode_returns := s.episode_returns ++ [r] } with e | b
    · have hres : MetaState.update_on_episode evalC s r el =
          ({ s with
              n_episodes := s.n_episodes + 1
              total_episodes := s.total_episodes + 1
              n_steps := s.n_steps + el
              total_steps := s.total_steps + el
              episode_returns := s.episode_returns ++ [r] }, some e) := by
        simp only [MetaState.update_on_episode, hq, he]
      rw [hres]
      refine ⟨rfl, rfl, Or.inl rfl, ?_, ?_, ?_⟩
      · constructor
        · intro habs
          have habs' : s.curriculum_index = s.curriculum_index + 1 := habs
          omega
        · rintro ⟨c', hc', htrue⟩
          cases hc'
          rw [he] at htrue
          cases htrue
      · intro habs
        have habs' : s.curriculum_index = s.curriculum_index + 1 := habs
        omega
      · intro _
        exact ⟨rfl, rfl, rfl⟩
    · cases b
      · have hres : MetaState.update_on_episode evalC s r el =
            ({ s with
                n_episodes := s.n_episodes + 1
                total_episodes := s.total_episodes + 1
                n_steps := s.n_steps + el
                total_steps := s.total_steps + el
                episode_returns := s.episode_returns ++ [r] }, none) := by
          simp only [MetaState.update_on_episode, hq, he]
        rw [hres]
        refine ⟨rfl, rfl, Or.inl rfl, ?_, ?_, ?_⟩
        · constructor
          · intro habs
            have habs' : s.curriculum_index = s.curriculum_index + 1 := habs
            omega
          · rintro ⟨c', hc', htrue⟩
            cases hc'
            rw [he] at htrue
            cases htrue
        · intro habs
          have habs' : s.curriculum_index = s.curriculum_index + 1 := habs
          omega
        · intro _
          exact ⟨rfl, rfl, rfl⟩
      · have hres : MetaState.update_on_episode evalC s r el =
            ({ s with
                curriculum_index := s.curriculum_index + 1
                n_episodes := 0
                total_episodes := s.total_episodes + 1
                n_steps := 0
                total_steps := s.total_steps + el
                episode_returns := [] }, none) := by
          simp only [MetaState.update_on_episode, hq, he]
        rw [hres]
        refine ⟨rfl, rfl, Or.inr rfl, ?_, ?_, ?_⟩
        · constructor
          · intro _
            exact ⟨c, rfl, he⟩
          · intro _
            rfl
        · intro _
          exact ⟨rfl, rfl, rfl⟩
        · intro habs
          have habs' : s.curriculum_index + 1 = s.curriculum_index := habs
          omega

/-- Witness for C1: a two-phase orchestrator with condition
`episodes>=2`, one episode already recorded; the next update increments
the lifetime count and triggers the transition with reset counters. -/
theorem update_on_episode_spec_witness :
    (MetaState.update_on_episode
        (fun p (s : MetaState Cond Nat) => evalCond (MetaState.metrics s) p)
        (⟨[0, 1], [Cond.atom .episodes .ge ("2".toList)], 0, 0, 0, 1, 1, []⟩ :
          MetaState Cond Nat) 5 7).1.total_episodes = 2 := by
  have h := update_on_episode_spec
    (fun p (s : MetaState Cond Nat) => evalCond (MetaState.metrics s) p)
    (⟨[0, 1], [Cond.atom .episodes .ge ("2".toList)], 0, 0, 0, 1, 1, []⟩ :
      MetaState Cond Nat) 5 7
  exact h.1

/-- C10: the method `sample(k)` never writes any field of the orchestrator —
the phase-scoped counters, the lifetime totals, the active phase index and
the stopping conditions are all unchanged (only the delegated-to
sub-curriculum entry may advance its own state). -/
theorem meta_sample_preserves_state {π σ τ δ ε : Type}
    (subSample : σ → Nat → σ × List τ) (decode : σ → τ → δ) (encode : δ → ε)
    (s : MetaState π σ) (k : Nat) :
    (MetaState.sample subSample decode encode s k).1.n_steps = s.n_steps ∧
    (MetaState.sample subSample decode encode s k).1.n_episodes = s.n_episodes ∧
    (MetaState.sample subSample decode encode s k).1.episode_returns =
      s.episode_returns ∧
    (MetaState.sample subSample decode encode s k).1.total_steps = s.total_steps ∧
    (MetaState.sample subSample decode encode s k).1.total_episodes =
      s.total_episodes ∧
    (MetaState.sample subSample decode encode s k).1.curriculum_index =
      s.curriculum_index ∧
    (MetaState.sample subSample decode encode s k).1.stopping_conditions =
      s.stopping_conditions := by
  simp only [MetaState.sample]
  rcases hq : s.curriculum_list[s.curriculum_index]? with _ | c <;> simp [hq]

end SequentialMetaCurriculum

end Syllabus
